import Mathlib

/-!
Verification of the quickhull convex-hull program (src/quickhull.py).

The program computes the convex hull of a finite list of 2D points with the
quickhull divide-and-conquer algorithm.  We embed the hull-construction core
shallowly: points are pairs of rationals (the program manipulates exact
numeric coordinates; the real-valued perpendicular distance, which involves a
square root, is modelled over the reals where a claim mentions it), lists are
Lean lists, and functions that can raise in the program return an
`Except HullError` value.

Error kinds, following the design document: `emptySet` models the ValueError
raised by min or max on an empty sequence, `degenerateLine` models the
ZeroDivisionError raised when a perpendicular distance is taken from a
zero-length baseline.
-/

namespace Quickhull

/-- The two failure modes of the program: an empty-sequence error from
min, max or the list-max selection, and a zero-length-baseline error from
the division in the distance evaluator. -/
inductive HullError where
  | emptySet
  | degenerateLine
deriving DecidableEq

/-- A point is an ordered pair of coordinates, written point.1 and point.2
for the x and y coordinate.  The program stores points as two-element lists
of exact numbers; equality is coordinate-wise. -/
abbrev Point : Type := ℚ × ℚ

/-- Orientation predicate: signed area test of point3 against the directed
line point1 to point2.  Direct translation of cross_product. -/
def cross_product (point1 point2 point3 : Point) : ℚ :=
  (point2.1 - point1.1) * (point3.2 - point1.2) -
    (point3.1 - point1.1) * (point2.2 - point1.2)

/-- Half-plane partitioner: splits a point list into the points strictly
above the directed line (positive cross product) and all remaining points.
The source iterates once over the list appending each point to above_line
when its angle is strictly positive and to below_line otherwise, which is
exactly a pair of order-preserving filters.  The conditional in the source
that tests for a zero angle or for equality with a baseline endpoint is a
no-op (its body is pass), so such points fall through to the below group
with no special exclusion. -/
def find_coordinates_above_and_below_line (coordinates : List Point)
    (line_start line_end : Point) : List Point × List Point :=
  (coordinates.filter (fun point => decide (0 < cross_product line_start line_end point)),
   coordinates.filter (fun point => ! decide (0 < cross_product line_start line_end point)))

/-- First element of acc :: rest minimising the x coordinate: the
accumulator is replaced only when a strictly smaller x appears, which is the
tie-breaking rule of min with a key function (first occurrence wins). -/
def min_by_x : Point → List Point → Point
  | acc, [] => acc
  | acc, q :: qs => if q.1 < acc.1 then min_by_x q qs else min_by_x acc qs

/-- First element of acc :: rest maximising the x coordinate: the
accumulator is replaced only when a strictly larger x appears, which is the
tie-breaking rule of max with a key function (first occurrence wins). -/
def max_by_x : Point → List Point → Point
  | acc, [] => acc
  | acc, q :: qs => if acc.1 < q.1 then max_by_x q qs else max_by_x acc qs

/-- Extremal point finder: the point of least x and the point of greatest x,
ties broken by first position in the list.  min and max raise on an empty
sequence, modelled by the emptySet error. -/
def find_leftmost_and_rightmost : List Point → Except HullError (Point × Point)
  | [] => .error .emptySet
  | c :: cs => .ok (min_by_x c cs, max_by_x c cs)

/-- Squared Euclidean distance between two points; the source computes its
square root with math.dist. -/
def distSq (a b : Point) : ℚ :=
  (b.1 - a.1) ^ 2 + (b.2 - a.2) ^ 2

/-- Euclidean distance between two points, the line_distance of the
source. -/
noncomputable def euclidean_dist (a b : Point) : ℝ :=
  Real.sqrt ((distSq a b : ℚ) : ℝ)

/-- Distance evaluator: the signed perpendicular distance of a point from
the directed line line_start to line_end, namely the cross product divided
by the length of the line.  The division raises exactly when that length is
zero, that is when the squared length is zero, modelled by the
degenerateLine error. -/
noncomputable def distance_from_line_to_point (line_start line_end point : Point) :
    Except HullError ℝ :=
  if distSq line_start line_end = 0 then .error .degenerateLine
  else .ok ((cross_product line_start line_end point : ℚ) / euclidean_dist line_start line_end)

/-- First element of acc :: rest maximising f: the accumulator is replaced
only on a strictly larger value, so the first occurrence of the maximum
wins — the semantics of taking the index of the first maximum of a list of
values. -/
def first_max_point {β : Type} [LinearOrder β] (f : Point → β) : Point → List Point → Point
  | acc, [] => acc
  | acc, q :: qs => if f acc < f q then first_max_point f q qs else first_max_point f acc qs

/-- Farthest point selector.  The source builds the list of signed distances
of the candidates from the line and returns the candidate at the index of
the first maximal distance.  On an empty candidate list the max of the empty
distance list raises (emptySet); on a zero-length baseline the very first
distance computation raises (degenerateLine).  Otherwise all candidates
share the same strictly positive divisor euclidean_dist line_start line_end,
so the first maximal distance occurs exactly at the first maximal cross
product; the correspondence with the real-valued distances is proved below
in farthest_point_eq_first_max_distance. -/
def farthest_point_from_line (coordinates : List Point) (line_start line_end : Point) :
    Except HullError Point :=
  match coordinates with
  | [] => .error .emptySet
  | c :: cs =>
    if distSq line_start line_end = 0 then .error .degenerateLine
    else .ok (first_max_point (fun point => cross_product line_start line_end point) c cs)

/-- The selected farthest point is one of the candidates. -/
theorem mem_first_max_point {β : Type} [LinearOrder β] (f : Point → β) :
    ∀ (l : List Point) (acc : Point), first_max_point f acc l ∈ acc :: l
  | [], acc => by simp [first_max_point]
  | q :: qs, acc => by
    rw [first_max_point]
    by_cases h : f acc < f q
    · rw [if_pos h]
      have := mem_first_max_point f qs q
      simp only [List.mem_cons] at this ⊢
      tauto
    · rw [if_neg h]
      have := mem_first_max_point f qs acc
      simp only [List.mem_cons] at this ⊢
      tauto

/-- The selected farthest point attains the maximum of f on the candidates. -/
theorem le_first_max_point {β : Type} [LinearOrder β] (f : Point → β) (l : List Point) :
    ∀ (acc : Point) (q : Point), q ∈ acc :: l → f q ≤ f (first_max_point f acc l) := by
  induction l with
  | nil =>
    intro acc q hq
    simp only [List.mem_cons, List.not_mem_nil, or_false] at hq
    subst hq; exact le_rfl
  | cons r rs ih =>
    intro acc q hq
    rw [first_max_point]
    simp only [List.mem_cons] at hq
    by_cases h : f acc < f r
    · rw [if_pos h]
      rcases hq with h1 | h1 | h1
      · exact h1 ▸ le_trans h.le (ih r r (by simp))
      · exact h1 ▸ ih r r (by simp)
      · exact ih r q (by simp [h1])
    · rw [if_neg h]
      rcases hq with h1 | h1 | h1
      · exact h1 ▸ ih acc acc (by simp)
      · exact h1 ▸ le_trans (not_lt.mp h) (ih acc acc (by simp))
      · exact ih acc q (by simp [h1])

/-- Two scoring functions that induce the same strict comparisons select the
same first maximal point. -/
theorem first_max_point_congr {β γ : Type} [LinearOrder β] [LinearOrder γ]
    (f : Point → β) (g : Point → γ) (hfg : ∀ a b, f a < f b ↔ g a < g b) :
    ∀ (l : List Point) (acc : Point), first_max_point f acc l = first_max_point g acc l
  | [], _ => rfl
  | q :: qs, acc => by
    rw [first_max_point, first_max_point]
    by_cases h : f acc < f q
    · rw [if_pos h, if_pos ((hfg acc q).mp h), first_max_point_congr f g hfg qs q]
    · rw [if_neg h, if_neg (fun hc => h ((hfg acc q).mpr hc)),
        first_max_point_congr f g hfg qs acc]

/-- Every point has orientation zero relative to a zero-length line. -/
theorem cross_product_degenerate (a p : Point) : cross_product a a p = 0 := by
  simp [cross_product]

/-- The end point of a line has orientation zero relative to that line. -/
theorem cross_product_end (a b : Point) : cross_product a b b = 0 := by
  simp only [cross_product]; ring

/-- The start point of a line has orientation zero relative to that line. -/
theorem cross_product_start (a b : Point) : cross_product a b a = 0 := by
  simp [cross_product]

/-- Membership in the positive-side output of the partitioner. -/
theorem mem_above_iff (coordinates : List Point) (line_start line_end p : Point) :
    p ∈ (find_coordinates_above_and_below_line coordinates line_start line_end).1 ↔
      p ∈ coordinates ∧ 0 < cross_product line_start line_end p := by
  simp [find_coordinates_above_and_below_line, List.mem_filter]

/-- Membership in the non-positive-side output of the partitioner. -/
theorem mem_below_iff (coordinates : List Point) (line_start line_end p : Point) :
    p ∈ (find_coordinates_above_and_below_line coordinates line_start line_end).2 ↔
      p ∈ coordinates ∧ cross_product line_start line_end p ≤ 0 := by
  simp [find_coordinates_above_and_below_line, List.mem_filter, not_lt]

/-- A successful farthest-point selection returns a member of the
candidate list. -/
theorem farthest_point_mem {coordinates : List Point} {line_start line_end p : Point}
    (h : farthest_point_from_line coordinates line_start line_end = .ok p) :
    p ∈ coordinates := by
  match coordinates with
  | [] => simp [farthest_point_from_line] at h
  | c :: cs =>
    rw [farthest_point_from_line] at h
    by_cases hd : distSq line_start line_end = 0
    · rw [if_pos hd] at h; exact absurd h (by simp)
    · rw [if_neg hd] at h
      have hp : first_max_point (fun point => cross_product line_start line_end point) c cs = p :=
        Except.ok.inj h
      have := mem_first_max_point (fun point => cross_product line_start line_end point) cs c
      rw [hp] at this
      simpa using this

/-- A successful farthest-point selection attains the maximal cross product
among the candidates. -/
theorem farthest_point_max {coordinates : List Point} {line_start line_end p : Point}
    (h : farthest_point_from_line coordinates line_start line_end = .ok p) :
    ∀ q ∈ coordinates, cross_product line_start line_end q ≤
      cross_product line_start line_end p := by
  match coordinates with
  | [] => simp [farthest_point_from_line] at h
  | c :: cs =>
    rw [farthest_point_from_line] at h
    by_cases hd : distSq line_start line_end = 0
    · rw [if_pos hd] at h; exact absurd h (by simp)
    · rw [if_neg hd] at h
      intro q hq
      have := le_first_max_point (fun point => cross_product line_start line_end point) cs c q hq
      have hp : first_max_point (fun point => cross_product line_start line_end point) c cs = p := by
        simpa using h
      simpa [hp] using this

/-- When the candidate list contains a point of non-positive orientation,
the positive side of the partition is strictly shorter than the list. -/
theorem above_length_lt {l : List Point} {a b p : Point} (hp : p ∈ l)
    (hple : ¬ 0 < cross_product a b p) :
    ((find_coordinates_above_and_below_line l a b).1).length < l.length := by
  rw [find_coordinates_above_and_below_line]
  rcases List.append_of_mem hp with ⟨s, t, rfl⟩
  simp only [List.filter_append, List.filter_cons, List.length_append]
  rw [decide_eq_false hple]
  simp only [Bool.false_eq_true, if_false]
  calc (List.filter (fun point => decide (0 < cross_product a b point)) s).length +
        (List.filter (fun point => decide (0 < cross_product a b point)) t).length
      ≤ s.length + t.length :=
        Nat.add_le_add (List.length_filter_le _ _) (List.length_filter_le _ _)
    _ < s.length + (t.length + 1) := by omega

/-- Recursive hull builder, a direct translation of find_hull: the empty
subset contributes no hull vertices; otherwise the farthest point f from the
baseline is a hull vertex, the subset is partitioned against the two
baselines (line_start, f) and (f, line_end) keeping the positive sides, and
the builder recurses on each side.  Exceptions raised by the selection or by
a recursive call propagate in program order (the right-side call runs
first).  Recursion terminates because f itself has orientation zero relative
to both new baselines, so both positive sides are strictly shorter lists
(above_length_lt). -/
def find_hull : List Point → Point → Point → Except HullError (List Point)
  | [], _, _ => .ok []
  | c :: cs, line_start, line_end =>
    match hf : farthest_point_from_line (c :: cs) line_start line_end with
    | .error e => .error e
    | .ok farthest_point =>
      match find_hull ((find_coordinates_above_and_below_line (c :: cs) line_start farthest_point).1)
              line_start farthest_point,
            find_hull ((find_coordinates_above_and_below_line (c :: cs) farthest_point line_end).1)
              farthest_point line_end with
      | .ok right_hull, .ok left_hull => .ok (farthest_point :: (right_hull ++ left_hull))
      | .error e, _ => .error e
      | .ok _, .error e => .error e
termination_by subset _ _ => subset.length
decreasing_by
  · exact above_length_lt (farthest_point_mem hf)
      (by rw [cross_product_end]; exact lt_irrefl 0)
  · exact above_length_lt (farthest_point_mem hf)
      (by rw [cross_product_start]; exact lt_irrefl 0)

/-- Hull orchestrator, a direct translation of quick_hull: find the global
leftmost and rightmost points, partition the input against that baseline,
build the hull of the above group on the baseline (leftmost, rightmost) and
of the below group on the reversed baseline (rightmost, leftmost), and
return leftmost, the above hull, the below hull and rightmost in that
order. -/
def quick_hull (coordinates : List Point) : Except HullError (List Point) :=
  match find_leftmost_and_rightmost coordinates with
  | .error e => .error e
  | .ok (leftmost, rightmost) =>
    match find_hull (find_coordinates_above_and_below_line coordinates leftmost rightmost).1
            leftmost rightmost with
    | .error e => .error e
    | .ok above_convex_hull =>
      match find_hull (find_coordinates_above_and_below_line coordinates leftmost rightmost).2
              rightmost leftmost with
      | .error e => .error e
      | .ok below_convex_hull =>
        .ok ([leftmost] ++ above_convex_hull ++ below_convex_hull ++ [rightmost])

/-- Fuelled copy of find_hull, structurally recursive on a fuel bound so
that concrete runs unfold by rewriting.  It agrees with find_hull whenever
the fuel is at least the length of the subset (find_hull_eq_fuel); the
out-of-fuel branch is never reached then. -/
def find_hull_fuel : Nat → List Point → Point → Point → Except HullError (List Point)
  | _, [], _, _ => .ok []
  | 0, _ :: _, _, _ => .error .emptySet
  | n + 1, c :: cs, line_start, line_end =>
    match farthest_point_from_line (c :: cs) line_start line_end with
    | .error e => .error e
    | .ok farthest_point =>
      match find_hull_fuel n ((find_coordinates_above_and_below_line (c :: cs) line_start farthest_point).1)
              line_start farthest_point,
            find_hull_fuel n ((find_coordinates_above_and_below_line (c :: cs) farthest_point line_end).1)
              farthest_point line_end with
      | .ok right_hull, .ok left_hull => .ok (farthest_point :: (right_hull ++ left_hull))
      | .error e, _ => .error e
      | .ok _, .error e => .error e

/-- find_hull agrees with its fuelled copy for sufficient fuel. -/
theorem find_hull_eq_fuel : ∀ (n : Nat) (s : List Point) (a b : Point), s.length ≤ n →
    find_hull s a b = find_hull_fuel n s a b := by
  intro n
  induction n with
  | zero =>
    intro s a b h
    have : s = [] := List.length_eq_zero.mp (Nat.le_zero.mp h)
    subst this
    rw [find_hull, find_hull_fuel]
  | succ n ih =>
    intro s a b h
    match s with
    | [] => rw [find_hull, find_hull_fuel]
    | c :: cs =>
      rw [find_hull.eq_def]
      dsimp only
      split
      · rename_i e heq
        simp [find_hull_fuel, heq]
      · rename_i f heq
        have hmem := farthest_point_mem heq
        have h1 : ((find_coordinates_above_and_below_line (c :: cs) a f).1).length ≤ n := by
          have := above_length_lt (l := c :: cs) (a := a) (b := f) hmem
            (by rw [cross_product_end]; exact lt_irrefl 0)
          simp only [List.length_cons] at h this
          omega
        have h2 : ((find_coordinates_above_and_below_line (c :: cs) f b).1).length ≤ n := by
          have := above_length_lt (l := c :: cs) (a := f) (b := b) hmem
            (by rw [cross_product_start]; exact lt_irrefl 0)
          simp only [List.length_cons] at h this
          omega
        rw [ih _ a f h1, ih _ f b h2]
        simp [find_hull_fuel, heq]

/-- Fuelled copy of quick_hull, used to evaluate concrete runs. -/
def quick_hull_fuel (coordinates : List Point) : Except HullError (List Point) :=
  match find_leftmost_and_rightmost coordinates with
  | .error e => .error e
  | .ok (leftmost, rightmost) =>
    match find_hull_fuel coordinates.length
            (find_coordinates_above_and_below_line coordinates leftmost rightmost).1
            leftmost rightmost with
    | .error e => .error e
    | .ok above_convex_hull =>
      match find_hull_fuel coordinates.length
              (find_coordinates_above_and_below_line coordinates leftmost rightmost).2
              rightmost leftmost with
      | .error e => .error e
      | .ok below_convex_hull =>
        .ok ([leftmost] ++ above_convex_hull ++ below_convex_hull ++ [rightmost])

/-- quick_hull agrees with its fuelled copy. -/
theorem quick_hull_eq_fuel (coordinates : List Point) :
    quick_hull coordinates = quick_hull_fuel coordinates := by
  rw [quick_hull, quick_hull_fuel]
  cases hlr : find_leftmost_and_rightmost coordinates with
  | error e => rfl
  | ok lr =>
    obtain ⟨leftmost, rightmost⟩ := lr
    have h1 : ((find_coordinates_above_and_below_line coordinates leftmost rightmost).1).length ≤
        coordinates.length := List.length_filter_le _ _
    have h2 : ((find_coordinates_above_and_below_line coordinates leftmost rightmost).2).length ≤
        coordinates.length := List.length_filter_le _ _
    dsimp only
    rw [find_hull_eq_fuel _ _ _ _ h1, find_hull_eq_fuel _ _ _ _ h2]

/-- The squared length of a baseline vanishes exactly when its two end
points coincide. -/
theorem distSq_eq_zero_iff (a b : Point) : distSq a b = 0 ↔ a = b := by
  rw [distSq]
  constructor
  · intro h
    obtain ⟨h1, h2⟩ :=
      (add_eq_zero_iff_of_nonneg (sq_nonneg (b.1 - a.1)) (sq_nonneg (b.2 - a.2))).mp h
    have e1 : b.1 - a.1 = 0 := sq_eq_zero_iff.mp h1
    have e2 : b.2 - a.2 = 0 := sq_eq_zero_iff.mp h2
    exact Prod.ext_iff.mpr ⟨by linarith, by linarith⟩
  · rintro rfl
    ring

/-- The Euclidean length of a non-degenerate baseline is strictly
positive. -/
theorem euclidean_dist_pos {a b : Point} (h : distSq a b ≠ 0) : 0 < euclidean_dist a b := by
  rw [euclidean_dist]
  apply Real.sqrt_pos.mpr
  have hnn : (0 : ℚ) ≤ distSq a b := by
    rw [distSq]; positivity
  have : (0 : ℚ) < distSq a b := lt_of_le_of_ne hnn (Ne.symm h)
  exact_mod_cast this

/-- For a fixed non-degenerate baseline, comparisons of the signed
perpendicular distances of two points agree with comparisons of their cross
products: the distances all share the strictly positive divisor given by
the length of the baseline. -/
theorem distance_value_lt_iff (a b p q : Point) (h : distSq a b ≠ 0) :
    ((cross_product a b p : ℚ) : ℝ) / euclidean_dist a b <
        ((cross_product a b q : ℚ) : ℝ) / euclidean_dist a b ↔
      cross_product a b p < cross_product a b q := by
  rw [div_lt_div_iff_of_pos_right (euclidean_dist_pos h)]
  exact_mod_cast Iff.rfl

/-- The farthest-point selector returns the first point attaining the
maximal signed perpendicular distance from the baseline, exactly as the
index of the maximum of the list of distances does in the source. -/
theorem farthest_point_eq_first_max_distance (c : Point) (cs : List Point) (a b : Point)
    (h : distSq a b ≠ 0) :
    farthest_point_from_line (c :: cs) a b =
      .ok (first_max_point
        (fun point => ((cross_product a b point : ℚ) : ℝ) / euclidean_dist a b) c cs) := by
  rw [farthest_point_from_line, if_neg h]
  congr 1
  exact first_max_point_congr _ _
    (fun p q => (distance_value_lt_iff a b p q h).symm) cs c

/-- The selected leftmost point is one of the candidates. -/
theorem min_by_x_mem : ∀ (l : List Point) (acc : Point), min_by_x acc l ∈ acc :: l
  | [], acc => by simp [min_by_x]
  | q :: qs, acc => by
    rw [min_by_x]
    by_cases h : q.1 < acc.1
    · rw [if_pos h]
      have := min_by_x_mem qs q
      simp only [List.mem_cons] at this ⊢
      tauto
    · rw [if_neg h]
      have := min_by_x_mem qs acc
      simp only [List.mem_cons] at this ⊢
      tauto

/-- The selected rightmost point is one of the candidates. -/
theorem max_by_x_mem : ∀ (l : List Point) (acc : Point), max_by_x acc l ∈ acc :: l
  | [], acc => by simp [max_by_x]
  | q :: qs, acc => by
    rw [max_by_x]
    by_cases h : acc.1 < q.1
    · rw [if_pos h]
      have := max_by_x_mem qs q
      simp only [List.mem_cons] at this ⊢
      tauto
    · rw [if_neg h]
      have := max_by_x_mem qs acc
      simp only [List.mem_cons] at this ⊢
      tauto

/-- The selected leftmost point minimises the x coordinate. -/
theorem min_by_x_le (l : List Point) : ∀ (acc q : Point), q ∈ acc :: l →
    (min_by_x acc l).1 ≤ q.1 := by
  induction l with
  | nil =>
    intro acc q hq
    simp only [List.mem_cons, List.not_mem_nil, or_false] at hq
    subst hq; exact le_rfl
  | cons r rs ih =>
    intro acc q hq
    rw [min_by_x]
    simp only [List.mem_cons] at hq
    by_cases h : r.1 < acc.1
    · rw [if_pos h]
      rcases hq with h1 | h1 | h1
      · exact h1 ▸ le_trans (le_of_lt (lt_of_le_of_lt (ih r r (by simp)) h)) le_rfl
      · exact h1 ▸ ih r r (by simp)
      · exact ih r q (by simp [h1])
    · rw [if_neg h]
      rcases hq with h1 | h1 | h1
      · exact h1 ▸ ih acc acc (by simp)
      · exact h1 ▸ le_trans (ih acc acc (by simp)) (not_lt.mp h)
      · exact ih acc q (by simp [h1])

/-- The selected rightmost point maximises the x coordinate. -/
theorem max_by_x_ge (l : List Point) : ∀ (acc q : Point), q ∈ acc :: l →
    q.1 ≤ (max_by_x acc l).1 := by
  induction l with
  | nil =>
    intro acc q hq
    simp only [List.mem_cons, List.not_mem_nil, or_false] at hq
    subst hq; exact le_rfl
  | cons r rs ih =>
    intro acc q hq
    rw [max_by_x]
    simp only [List.mem_cons] at hq
    by_cases h : acc.1 < r.1
    · rw [if_pos h]
      rcases hq with h1 | h1 | h1
      · exact h1 ▸ le_trans h.le (ih r r (by simp))
      · exact h1 ▸ ih r r (by simp)
      · exact ih r q (by simp [h1])
    · rw [if_neg h]
      rcases hq with h1 | h1 | h1
      · exact h1 ▸ ih acc acc (by simp)
      · exact h1 ▸ le_trans (not_lt.mp h) (ih acc acc (by simp))
      · exact ih acc q (by simp [h1])

/-- Ties are broken by first occurrence: every candidate listed before the
selected leftmost point has a strictly larger x coordinate. -/
theorem min_by_x_first (l : List Point) : ∀ (acc : Point),
    ∃ l1 l2, acc :: l = l1 ++ min_by_x acc l :: l2 ∧
      ∀ q ∈ l1, (min_by_x acc l).1 < q.1 := by
  induction l with
  | nil =>
    intro acc
    exact ⟨[], [], by simp [min_by_x], by simp⟩
  | cons r rs ih =>
    intro acc
    rw [min_by_x]
    by_cases h : r.1 < acc.1
    · rw [if_pos h]
      obtain ⟨l1, l2, hsplit, hgt⟩ := ih r
      refine ⟨acc :: l1, l2, by rw [List.cons_append, ← hsplit], ?_⟩
      intro q hq
      rcases List.mem_cons.mp hq with h1 | h1
      · subst h1
        exact lt_of_le_of_lt (min_by_x_le rs r r (by simp)) h
      · exact hgt q h1
    · rw [if_neg h]
      obtain ⟨l1, l2, hsplit, hgt⟩ := ih acc
      rcases l1 with _ | ⟨a, l1'⟩
      · simp only [List.nil_append] at hsplit
        injection hsplit with h1 h2
        exact ⟨[], r :: rs, by rw [List.nil_append, ← h1], by simp⟩
      · rw [List.cons_append] at hsplit
        injection hsplit with h1 h2
        subst h1
        refine ⟨acc :: r :: l1', l2, ?_, ?_⟩
        · rw [List.cons_append, List.cons_append, ← h2]
        · intro q hq
          have hacc : (min_by_x acc rs).1 < acc.1 := hgt acc (by simp)
          rcases List.mem_cons.mp hq with h3 | h3
          · exact h3 ▸ hacc
          · rcases List.mem_cons.mp h3 with h4 | h4
            · exact h4 ▸ lt_of_lt_of_le hacc (not_lt.mp h)
            · exact hgt q (by simp [h4])

/-- Ties are broken by first occurrence: every candidate listed before the
selected rightmost point has a strictly smaller x coordinate. -/
theorem max_by_x_first (l : List Point) : ∀ (acc : Point),
    ∃ l1 l2, acc :: l = l1 ++ max_by_x acc l :: l2 ∧
      ∀ q ∈ l1, q.1 < (max_by_x acc l).1 := by
  induction l with
  | nil =>
    intro acc
    exact ⟨[], [], by simp [max_by_x], by simp⟩
  | cons r rs ih =>
    intro acc
    rw [max_by_x]
    by_cases h : acc.1 < r.1
    · rw [if_pos h]
      obtain ⟨l1, l2, hsplit, hlt⟩ := ih r
      refine ⟨acc :: l1, l2, by rw [List.cons_append, ← hsplit], ?_⟩
      intro q hq
      rcases List.mem_cons.mp hq with h1 | h1
      · subst h1
        exact lt_of_lt_of_le h (max_by_x_ge rs r r (by simp))
      · exact hlt q h1
    · rw [if_neg h]
      obtain ⟨l1, l2, hsplit, hlt⟩ := ih acc
      rcases l1 with _ | ⟨a, l1'⟩
      · simp only [List.nil_append] at hsplit
        injection hsplit with h1 h2
        exact ⟨[], r :: rs, by rw [List.nil_append, ← h1], by simp⟩
      · rw [List.cons_append] at hsplit
        injection hsplit with h1 h2
        subst h1
        refine ⟨acc :: r :: l1', l2, ?_, ?_⟩
        · rw [List.cons_append, List.cons_append, ← h2]
        · intro q hq
          have hacc : acc.1 < (max_by_x acc rs).1 := hlt acc (by simp)
          rcases List.mem_cons.mp hq with h3 | h3
          · exact h3 ▸ hacc
          · rcases List.mem_cons.mp h3 with h4 | h4
            · exact h4 ▸ lt_of_le_of_lt (not_lt.mp h) hacc
            · exact hlt q (by simp [h4])

/-- Relative to a zero-length baseline no point is on the positive side. -/
theorem above_degenerate (l : List Point) (a : Point) :
    (find_coordinates_above_and_below_line l a a).1 = [] := by
  rw [find_coordinates_above_and_below_line]
  simp [List.filter_eq_nil_iff, cross_product_degenerate]

/-- Every point of a hull built by find_hull is a member of the subset the
builder was given. -/
theorem find_hull_mem : ∀ (s : List Point) (a b : Point) (hull : List Point),
    find_hull s a b = .ok hull → ∀ p ∈ hull, p ∈ s := by
  suffices H : ∀ (n : Nat) (s : List Point), s.length ≤ n → ∀ (a b : Point) (hull : List Point),
      find_hull s a b = .ok hull → ∀ p ∈ hull, p ∈ s by
    intro s a b hull h p hp
    exact H s.length s le_rfl a b hull h p hp
  intro n
  induction n with
  | zero =>
    intro s hlen a b hull hres p hp
    have : s = [] := List.length_eq_zero.mp (Nat.le_zero.mp hlen)
    subst this
    rw [find_hull] at hres
    injection hres with h1
    subst h1
    exact absurd hp (by simp)
  | succ n ih =>
    intro s hlen a b hull hres p hp
    match s with
    | [] =>
      rw [find_hull] at hres
      injection hres with h1
      subst h1
      exact absurd hp (by simp)
    | c :: cs =>
      rw [find_hull.eq_def] at hres
      dsimp only at hres
      split at hres
      · exact absurd hres (by simp)
      · rename_i f heq
        split at hres
        · rename_i right_hull left_hull hA hB
          injection hres with h1
          subst h1
          have hlt1 := above_length_lt (l := c :: cs) (a := a) (b := f)
            (farthest_point_mem heq) (by rw [cross_product_end]; exact lt_irrefl 0)
          have hlt2 := above_length_lt (l := c :: cs) (a := f) (b := b)
            (farthest_point_mem heq) (by rw [cross_product_start]; exact lt_irrefl 0)
          rcases List.mem_cons.mp hp with h2 | h2
          · exact h2 ▸ farthest_point_mem heq
          · rcases List.mem_append.mp h2 with h3 | h3
            · have hmem := ih _ (by simp only [List.length_cons] at hlen hlt1 ⊢; omega)
                a f right_hull hA p h3
              exact ((mem_above_iff _ _ _ _).mp hmem).1
            · have hmem := ih _ (by simp only [List.length_cons] at hlen hlt2 ⊢; omega)
                f b left_hull hB p h3
              exact ((mem_above_iff _ _ _ _).mp hmem).1
        · exact absurd hres (by simp)
        · exact absurd hres (by simp)

/-- The hull builder never raises when its baseline is non-degenerate: the
only degenerate baselines that can arise in the recursion are those whose
positive-side subset is empty, and those hit the base case. -/
theorem find_hull_ok : ∀ (s : List Point) (a b : Point), a ≠ b →
    ∃ hull, find_hull s a b = .ok hull := by
  suffices H : ∀ (n : Nat) (s : List Point), s.length ≤ n → ∀ (a b : Point), a ≠ b →
      ∃ hull, find_hull s a b = .ok hull by
    intro s a b hab
    exact H s.length s le_rfl a b hab
  intro n
  induction n with
  | zero =>
    intro s hlen a b _
    have : s = [] := List.length_eq_zero.mp (Nat.le_zero.mp hlen)
    subst this
    exact ⟨[], by rw [find_hull]⟩
  | succ n ih =>
    intro s hlen a b hab
    match s with
    | [] => exact ⟨[], by rw [find_hull]⟩
    | c :: cs =>
      have hd : distSq a b ≠ 0 := fun h0 => hab ((distSq_eq_zero_iff a b).mp h0)
      rw [find_hull.eq_def]
      dsimp only
      split
      · rename_i e heq
        rw [farthest_point_from_line, if_neg hd] at heq
        exact absurd heq (by simp)
      · rename_i f heq
        have hmem := farthest_point_mem heq
        have hlt1 := above_length_lt (l := c :: cs) (a := a) (b := f) hmem
          (by rw [cross_product_end]; exact lt_irrefl 0)
        have hlt2 := above_length_lt (l := c :: cs) (a := f) (b := b) hmem
          (by rw [cross_product_start]; exact lt_irrefl 0)
        have hright : ∃ right_hull,
            find_hull ((find_coordinates_above_and_below_line (c :: cs) a f).1) a f =
              .ok right_hull := by
          by_cases haf : a = f
          · rw [← haf, above_degenerate]
            exact ⟨[], by rw [find_hull]⟩
          · exact ih _ (by simp only [List.length_cons] at hlen hlt1 ⊢; omega) a f haf
        have hleft : ∃ left_hull,
            find_hull ((find_coordinates_above_and_below_line (c :: cs) f b).1) f b =
              .ok left_hull := by
          by_cases hfb : f = b
          · rw [hfb, above_degenerate]
            exact ⟨[], by rw [find_hull]⟩
          · exact ih _ (by simp only [List.length_cons] at hlen hlt2 ⊢; omega) f b hfb
        obtain ⟨right_hull, hr⟩ := hright
        obtain ⟨left_hull, hl⟩ := hleft
        rw [hr, hl]
        exact ⟨_, rfl⟩

/-- Every point of a hull returned by quick_hull is a member of the input
list. -/
theorem quick_hull_subset (coordinates hull : List Point)
    (h : quick_hull coordinates = .ok hull) : ∀ p ∈ hull, p ∈ coordinates := by
  rw [quick_hull] at h
  split at h
  · exact absurd h (by simp)
  · rename_i lr leftmost rightmost hlr
    split at h
    · exact absurd h (by simp)
    · rename_i above_convex_hull hA
      split at h
      · exact absurd h (by simp)
      · rename_i below_convex_hull hB
        injection h with h1
        subst h1
        intro p hp
        have hcons : ∃ c cs, coordinates = c :: cs ∧
            leftmost = min_by_x c cs ∧ rightmost = max_by_x c cs := by
          match coordinates, hlr with
          | c :: cs, hlr =>
            rw [find_leftmost_and_rightmost] at hlr
            injection hlr with h2
            exact ⟨c, cs, rfl, (Prod.ext_iff.mp h2.symm).1, (Prod.ext_iff.mp h2.symm).2⟩
        obtain ⟨c, cs, hcc, hlm, hrm⟩ := hcons
        simp only [List.append_assoc, List.mem_append, List.mem_cons, List.mem_singleton,
          List.not_mem_nil, or_false] at hp
        rcases hp with h2 | h2 | h2 | h2
        · rw [h2, hcc, hlm]; exact min_by_x_mem cs c
        · have := find_hull_mem _ _ _ _ hA p h2
          exact ((mem_above_iff _ _ _ _).mp this).1
        · have := find_hull_mem _ _ _ _ hB p h2
          exact ((mem_below_iff _ _ _ _).mp this).1
        · rw [h2, hcc, hrm]; exact max_by_x_mem cs c

/-- On a non-empty subset with a zero-length baseline the hull builder
raises the degenerate-line error of the distance evaluator. -/
theorem find_hull_degenerate_error (c : Point) (cs : List Point) (a : Point) :
    find_hull (c :: cs) a a = .error .degenerateLine := by
  rw [find_hull.eq_def]
  dsimp only
  split
  · rename_i e heq
    rw [farthest_point_from_line, if_pos ((distSq_eq_zero_iff a a).mpr rfl)] at heq
    injection heq with h1
    rw [h1]
  · rename_i f heq
    rw [farthest_point_from_line, if_pos ((distSq_eq_zero_iff a a).mpr rfl)] at heq
    exact absurd heq (by simp)

/-- Anatomy of a successful quick_hull run: the input is non-empty, the two
hull-builder calls succeed, and the output is the leftmost point, the above
hull, the below hull and the rightmost point in that order. -/
theorem quick_hull_ok_elim {coordinates hull : List Point}
    (h : quick_hull coordinates = .ok hull) :
    ∃ c cs above_convex_hull below_convex_hull,
      coordinates = c :: cs ∧
      find_hull (find_coordinates_above_and_below_line coordinates
          (min_by_x c cs) (max_by_x c cs)).1 (min_by_x c cs) (max_by_x c cs) =
        .ok above_convex_hull ∧
      find_hull (find_coordinates_above_and_below_line coordinates
          (min_by_x c cs) (max_by_x c cs)).2 (max_by_x c cs) (min_by_x c cs) =
        .ok below_convex_hull ∧
      hull = [min_by_x c cs] ++ above_convex_hull ++ below_convex_hull ++ [max_by_x c cs] := by
  rw [quick_hull] at h
  split at h
  · exact absurd h (by simp)
  · rename_i lr leftmost rightmost hlr
    split at h
    · exact absurd h (by simp)
    · rename_i above_convex_hull hA
      split at h
      · exact absurd h (by simp)
      · rename_i below_convex_hull hB
        injection h with h1
        match coordinates, hlr with
        | c :: cs, hlr =>
          rw [find_leftmost_and_rightmost] at hlr
          injection hlr with h2
          have hl : leftmost = min_by_x c cs := (Prod.ext_iff.mp h2.symm).1
          have hr : rightmost = max_by_x c cs := (Prod.ext_iff.mp h2.symm).2
          subst hl; subst hr
          exact ⟨c, cs, above_convex_hull, below_convex_hull, rfl, hA, hB, h1.symm⟩

/-- When the least and greatest x coordinates coincide, the extremal point
finder returns the same point twice: both selections fall back to the first
point of the list. -/
theorem min_eq_max_of_same_x (c : Point) (cs : List Point)
    (hx : (min_by_x c cs).1 = (max_by_x c cs).1) : min_by_x c cs = max_by_x c cs := by
  obtain ⟨p1, p2, hs1, hg1⟩ := min_by_x_first cs c
  obtain ⟨q1, q2, hs2, hg2⟩ := max_by_x_first cs c
  have hp1 : p1 = [] := by
    cases p1 with
    | nil => rfl
    | cons a t =>
      have ha : a ∈ c :: cs := by rw [hs1]; simp
      have h1 : (min_by_x c cs).1 < a.1 := hg1 a (by simp)
      have h2 : a.1 ≤ (max_by_x c cs).1 := max_by_x_ge cs c a ha
      rw [← hx] at h2
      exact absurd h1 (not_lt.mpr h2)
  have hq1 : q1 = [] := by
    cases q1 with
    | nil => rfl
    | cons a t =>
      have ha : a ∈ c :: cs := by rw [hs2]; simp
      have h1 : a.1 < (max_by_x c cs).1 := hg2 a (by simp)
      have h2 : (min_by_x c cs).1 ≤ a.1 := min_by_x_le cs c a ha
      rw [hx] at h2
      exact absurd h1 (not_lt.mpr h2)
  subst hp1; subst hq1
  simp only [List.nil_append] at hs1 hs2
  injection hs1 with e1 _
  injection hs2 with e2 _
  rw [← e1, ← e2]

/-- A successful quick_hull run has distinct extremal points: were they
equal, the non-empty below group (it contains the leftmost point itself,
whose orientation is zero) would make the hull builder raise on the
zero-length reversed baseline. -/
theorem quick_hull_ok_lr_ne {coordinates hull : List Point}
    (h : quick_hull coordinates = .ok hull) :
    ∃ c cs, coordinates = c :: cs ∧ min_by_x c cs ≠ max_by_x c cs := by
  obtain ⟨c, cs, A, B, hcc, hA, hB, hshape⟩ := quick_hull_ok_elim h
  refine ⟨c, cs, hcc, fun hlr => ?_⟩
  have hmem : min_by_x c cs ∈
      (find_coordinates_above_and_below_line coordinates (min_by_x c cs) (max_by_x c cs)).2 := by
    apply (mem_below_iff _ _ _ _).mpr
    refine ⟨by rw [hcc]; exact min_by_x_mem cs c, ?_⟩
    rw [cross_product_start]
  match hbelow : (find_coordinates_above_and_below_line coordinates
      (min_by_x c cs) (max_by_x c cs)).2, hmem, hB with
  | d :: ds, _, hB =>
    rw [← hlr] at hB
    rw [find_hull_degenerate_error] at hB
    exact absurd hB (by simp)

/-!
Claims.
-/

/-- C1.  Hull membership: whenever quick_hull returns normally, every point
of the returned hull sequence is an element of the input sequence — no
fabricated coordinates appear in the output. -/
theorem claim_C1_hull_membership (coordinates hull : List Point)
    (h : quick_hull coordinates = .ok hull) : ∀ p ∈ hull, p ∈ coordinates :=
  quick_hull_subset coordinates hull h

/-- Witness for C1 on the square-with-interior input. -/
theorem claim_C1_witness :
    ((0:ℚ), (10:ℚ)) ∈ [((0:ℚ),(0:ℚ)), (0,10), (10,0), (10,10), (5,5)] :=
  claim_C1_hull_membership [((0:ℚ),(0:ℚ)), (0,10), (10,0), (10,10), (5,5)]
    [(0,0),(0,10),(10,10),(0,0),(10,0)]
    (by
      rw [quick_hull_eq_fuel]
      norm_num [quick_hull_fuel, find_hull_fuel, farthest_point_from_line, first_max_point,
        find_coordinates_above_and_below_line, cross_product, distSq,
        find_leftmost_and_rightmost, min_by_x, max_by_x])
    ((0:ℚ), (10:ℚ)) (by norm_num)

/-- C2.  Recursive hull builder structure: on the empty subset find_hull
returns the empty sequence; on a subset whose farthest-point selection
returns f, it partitions the original subset (with no removal of f) against
the baselines (start, f) and (f, end), keeps the positive sides, recurses
on them, and returns [f] followed by the (start, f) result followed by the
(f, end) result. -/
theorem claim_C2_recursive_structure :
    (∀ (line_start line_end : Point), find_hull [] line_start line_end = .ok []) ∧
    (∀ (s : List Point) (line_start line_end f : Point) (right_hull left_hull : List Point),
      farthest_point_from_line s line_start line_end = .ok f →
      find_hull ((find_coordinates_above_and_below_line s line_start f).1) line_start f =
        .ok right_hull →
      find_hull ((find_coordinates_above_and_below_line s f line_end).1) f line_end =
        .ok left_hull →
      find_hull s line_start line_end = .ok ([f] ++ right_hull ++ left_hull)) := by
  constructor
  · intro line_start line_end
    rw [find_hull]
  · intro s line_start line_end f right_hull left_hull heq hr hl
    match s, heq with
    | c :: cs, heq =>
      rw [find_hull.eq_def]
      dsimp only
      split
      · rename_i e heq2
        rw [heq] at heq2
        exact absurd heq2 (by simp)
      · rename_i f2 heq2
        rw [heq] at heq2
        injection heq2 with e2
        subst e2
        rw [hr, hl]
        dsimp only
        rw [List.append_assoc, List.singleton_append]

/-- Witness for C2 on a singleton subset. -/
theorem claim_C2_witness :
    find_hull [((2:ℚ),(1:ℚ))] ((0:ℚ),(0:ℚ)) ((4:ℚ),(0:ℚ)) =
      .ok ([((2:ℚ),(1:ℚ))] ++ [] ++ []) :=
  claim_C2_recursive_structure.2 [((2:ℚ),(1:ℚ))] ((0:ℚ),(0:ℚ)) ((4:ℚ),(0:ℚ)) ((2:ℚ),(1:ℚ)) [] []
    (by norm_num [farthest_point_from_line, first_max_point, distSq])
    (by
      have hX : (find_coordinates_above_and_below_line [((2:ℚ),(1:ℚ))]
          ((0:ℚ),(0:ℚ)) ((2:ℚ),(1:ℚ))).1 = [] := by
        norm_num [find_coordinates_above_and_below_line, cross_product]
      rw [hX, find_hull])
    (by
      have hX : (find_coordinates_above_and_below_line [((2:ℚ),(1:ℚ))]
          ((2:ℚ),(1:ℚ)) ((4:ℚ),(0:ℚ))).1 = [] := by
        norm_num [find_coordinates_above_and_below_line, cross_product]
      rw [hX, find_hull])

/-- C3.  Half-plane partitioner contract: a point is placed in the
positive-side output exactly when its orientation is strictly positive;
every point of zero or negative orientation — including the baseline's own
start and end points when present in the set — is placed in the
non-positive-side output, with no special exclusion of any point. -/
theorem claim_C3_partitioner_contract (coordinates : List Point)
    (line_start line_end p : Point) :
    (p ∈ (find_coordinates_above_and_below_line coordinates line_start line_end).1 ↔
      p ∈ coordinates ∧ 0 < cross_product line_start line_end p) ∧
    (p ∈ (find_coordinates_above_and_below_line coordinates line_start line_end).2 ↔
      p ∈ coordinates ∧ cross_product line_start line_end p ≤ 0) ∧
    (line_start ∈ coordinates →
      line_start ∈ (find_coordinates_above_and_below_line coordinates line_start line_end).2) ∧
    (line_end ∈ coordinates →
      line_end ∈ (find_coordinates_above_and_below_line coordinates line_start line_end).2) :=
  ⟨mem_above_iff coordinates line_start line_end p,
   mem_below_iff coordinates line_start line_end p,
   fun hmem => (mem_below_iff coordinates line_start line_end line_start).mpr
     ⟨hmem, le_of_eq (cross_product_start line_start line_end)⟩,
   fun hmem => (mem_below_iff coordinates line_start line_end line_end).mpr
     ⟨hmem, le_of_eq (cross_product_end line_start line_end)⟩⟩

/-- Witness for C3: the baseline start point, present in the set and of
zero orientation, lands in the non-positive-side output. -/
theorem claim_C3_witness :
    ((0:ℚ),(0:ℚ)) ∈ (find_coordinates_above_and_below_line
      [((0:ℚ),(0:ℚ)), (1,1)] ((0:ℚ),(0:ℚ)) ((1:ℚ),(0:ℚ))).2 :=
  (claim_C3_partitioner_contract [((0:ℚ),(0:ℚ)), (1,1)] ((0:ℚ),(0:ℚ)) ((1:ℚ),(0:ℚ))
    ((0:ℚ),(0:ℚ))).2.2.1 (by norm_num)

/-- C4.  Termination measure: the farthest point f selected by a recursive
step has zero orientation relative to both new baselines, hence belongs to
neither positive-side subset, and both recursive calls receive strictly
shorter lists.  find_hull and quick_hull are total Lean functions; this is
the decrease argument their recursion is justified by. -/
theorem claim_C4_termination_measure (s : List Point) (line_start line_end f : Point)
    (h : farthest_point_from_line s line_start line_end = .ok f) :
    cross_product line_start f f = 0 ∧
    cross_product f line_end f = 0 ∧
    f ∉ (find_coordinates_above_and_below_line s line_start f).1 ∧
    f ∉ (find_coordinates_above_and_below_line s f line_end).1 ∧
    ((find_coordinates_above_and_below_line s line_start f).1).length < s.length ∧
    ((find_coordinates_above_and_below_line s f line_end).1).length < s.length := by
  have hmem := farthest_point_mem h
  refine ⟨cross_product_end line_start f, cross_product_start f line_end, ?_, ?_, ?_, ?_⟩
  · intro hcon
    have := ((mem_above_iff s line_start f f).mp hcon).2
    rw [cross_product_end] at this
    exact lt_irrefl 0 this
  · intro hcon
    have := ((mem_above_iff s f line_end f).mp hcon).2
    rw [cross_product_start] at this
    exact lt_irrefl 0 this
  · exact above_length_lt hmem (by rw [cross_product_end]; exact lt_irrefl 0)
  · exact above_length_lt hmem (by rw [cross_product_start]; exact lt_irrefl 0)

/-- Witness for C4 on a two-point subset. -/
theorem claim_C4_witness :
    cross_product ((0:ℚ),(0:ℚ)) ((2:ℚ),(1:ℚ)) ((2:ℚ),(1:ℚ)) = 0 ∧
    cross_product ((2:ℚ),(1:ℚ)) ((4:ℚ),(0:ℚ)) ((2:ℚ),(1:ℚ)) = 0 ∧
    ((2:ℚ),(1:ℚ)) ∉ (find_coordinates_above_and_below_line [((2:ℚ),(1:ℚ)), (1,1)]
      ((0:ℚ),(0:ℚ)) ((2:ℚ),(1:ℚ))).1 ∧
    ((2:ℚ),(1:ℚ)) ∉ (find_coordinates_above_and_below_line [((2:ℚ),(1:ℚ)), (1,1)]
      ((2:ℚ),(1:ℚ)) ((4:ℚ),(0:ℚ))).1 ∧
    ((find_coordinates_above_and_below_line [((2:ℚ),(1:ℚ)), (1,1)]
      ((0:ℚ),(0:ℚ)) ((2:ℚ),(1:ℚ))).1).length < ([((2:ℚ),(1:ℚ)), (1,1)] : List Point).length ∧
    ((find_coordinates_above_and_below_line [((2:ℚ),(1:ℚ)), (1,1)]
      ((2:ℚ),(1:ℚ)) ((4:ℚ),(0:ℚ))).1).length < ([((2:ℚ),(1:ℚ)), (1,1)] : List Point).length :=
  claim_C4_termination_measure [((2:ℚ),(1:ℚ)), (1,1)] ((0:ℚ),(0:ℚ)) ((4:ℚ),(0:ℚ))
    ((2:ℚ),(1:ℚ))
    (by norm_num [farthest_point_from_line, first_max_point, distSq, cross_product])

/-- C5.  Square-with-interior test case: on the four corners of a square
plus its centre, the set of points of the returned hull is exactly the four
corners, and the interior centre point does not occur in the output. -/
theorem claim_C5_square_case :
    quick_hull [((0:ℚ),(0:ℚ)), (0,10), (10,0), (10,10), (5,5)] =
      .ok [(0,0),(0,10),(10,10),(0,0),(10,0)] ∧
    (∀ p : Point, p ∈ ([((0:ℚ),(0:ℚ)),(0,10),(10,10),(0,0),(10,0)] : List Point) ↔
      p ∈ ([((0:ℚ),(0:ℚ)), (0,10), (10,0), (10,10)] : List Point)) ∧
    ((5:ℚ),(5:ℚ)) ∉ ([((0:ℚ),(0:ℚ)),(0,10),(10,10),(0,0),(10,0)] : List Point) := by
  refine ⟨?_, ?_, ?_⟩
  · rw [quick_hull_eq_fuel]
    norm_num [quick_hull_fuel, find_hull_fuel, farthest_point_from_line, first_max_point,
      find_coordinates_above_and_below_line, cross_product, distSq,
      find_leftmost_and_rightmost, min_by_x, max_by_x]
  · intro p
    simp only [List.mem_cons, List.not_mem_nil, or_false]
    tauto
  · norm_num

/-- C6.  Degenerate vertical-line case: when every input point shares one x
coordinate the extremal point finder returns the same point as both
leftmost and rightmost, and quick_hull fails with the degenerate-line error
instead of returning a hull. -/
theorem claim_C6_degenerate_vertical :
    find_leftmost_and_rightmost [((1:ℚ),(1:ℚ)), (1,5), (1,9)] = .ok ((1,1), (1,1)) ∧
    quick_hull [((1:ℚ),(1:ℚ)), (1,5), (1,9)] = .error .degenerateLine := by
  constructor
  · norm_num [find_leftmost_and_rightmost, min_by_x, max_by_x]
  · rw [quick_hull_eq_fuel]
    norm_num [quick_hull_fuel, find_hull_fuel, farthest_point_from_line, first_max_point,
      find_coordinates_above_and_below_line, cross_product, distSq,
      find_leftmost_and_rightmost, min_by_x, max_by_x]

/-- C7.  Distance evaluator: the signed distance computation fails with the
degenerate-line error exactly when the baseline start equals its end; when
they differ it returns the orientation of (start, end, point) divided by
the Euclidean length of the baseline and does not fail. -/
theorem claim_C7_distance_evaluator (line_start line_end point : Point) :
    (distance_from_line_to_point line_start line_end point = .error .degenerateLine ↔
      line_start = line_end) ∧
    (line_start ≠ line_end →
      distance_from_line_to_point line_start line_end point =
        .ok (((cross_product line_start line_end point : ℚ) : ℝ) /
          euclidean_dist line_start line_end)) := by
  constructor
  · rw [distance_from_line_to_point]
    by_cases hd : distSq line_start line_end = 0
    · rw [if_pos hd]
      simp [(distSq_eq_zero_iff line_start line_end).mp hd]
    · rw [if_neg hd]
      constructor
      · intro hcon
        exact absurd hcon (by simp)
      · intro heq
        exact absurd ((distSq_eq_zero_iff line_start line_end).mpr heq) hd
  · intro hne
    have hd : distSq line_start line_end ≠ 0 :=
      fun h0 => hne ((distSq_eq_zero_iff line_start line_end).mp h0)
    rw [distance_from_line_to_point, if_neg hd]

/-- Witness for C7 on a unit-length horizontal baseline. -/
theorem claim_C7_witness :
    distance_from_line_to_point ((0:ℚ),(0:ℚ)) ((1:ℚ),(0:ℚ)) ((2:ℚ),(3:ℚ)) =
      .ok (((cross_product ((0:ℚ),(0:ℚ)) ((1:ℚ),(0:ℚ)) ((2:ℚ),(3:ℚ)) : ℚ) : ℝ) /
        euclidean_dist ((0:ℚ),(0:ℚ)) ((1:ℚ),(0:ℚ))) :=
  (claim_C7_distance_evaluator ((0:ℚ),(0:ℚ)) ((1:ℚ),(0:ℚ)) ((2:ℚ),(3:ℚ))).2
    (by norm_num [Prod.ext_iff])

/-- C8, counterexample.  Idempotence fails: on the input
[(2,0),(0,0),(4,0),(2,1)] the hull contains the collinear boundary point
(2,0), and re-running quick_hull on that hull output drops it, so the two
point sets differ. -/
theorem claim_C8_counterexample :
    quick_hull [((2:ℚ),(0:ℚ)), (0,0), (4,0), (2,1)] = .ok [(0,0),(2,1),(2,0),(4,0)] ∧
    quick_hull [((0:ℚ),(0:ℚ)), (2,1), (2,0), (4,0)] = .ok [(0,0),(2,1),(0,0),(4,0)] ∧
    ((2:ℚ),(0:ℚ)) ∈ ([((0:ℚ),(0:ℚ)),(2,1),(2,0),(4,0)] : List Point) ∧
    ((2:ℚ),(0:ℚ)) ∉ ([((0:ℚ),(0:ℚ)),(2,1),(0,0),(4,0)] : List Point) := by
  refine ⟨?_, ?_, by norm_num, by norm_num⟩
  · rw [quick_hull_eq_fuel]
    norm_num [quick_hull_fuel, find_hull_fuel, farthest_point_from_line, first_max_point,
      find_coordinates_above_and_below_line, cross_product, distSq,
      find_leftmost_and_rightmost, min_by_x, max_by_x]
  · rw [quick_hull_eq_fuel]
    norm_num [quick_hull_fuel, find_hull_fuel, farthest_point_from_line, first_max_point,
      find_coordinates_above_and_below_line, cross_product, distSq,
      find_leftmost_and_rightmost, min_by_x, max_by_x]

/-- C8, amended.  Running quick_hull on its own successful hull output
succeeds again, and every point of the second hull is a point of the first
hull: the rerun's point set is contained in the original hull's point set
(equality can fail, as collinear boundary points may be dropped). -/
theorem claim_C8_idempotence_subset (coordinates hull : List Point)
    (h : quick_hull coordinates = .ok hull) :
    ∃ hull2, quick_hull hull = .ok hull2 ∧ ∀ p ∈ hull2, p ∈ hull := by
  obtain ⟨c, cs, A, B, hcc, hA, hB, hshape⟩ := quick_hull_ok_elim h
  obtain ⟨c2, cs2, hcc2, hne⟩ := quick_hull_ok_lr_ne h
  rw [hcc] at hcc2
  injection hcc2 with e1 e2
  subst e1
  subst e2
  have hsub := quick_hull_subset coordinates hull h
  have hhull : hull = min_by_x c cs :: (A ++ B ++ [max_by_x c cs]) := by
    rw [hshape]
    simp [List.append_assoc]
  have hflr : find_leftmost_and_rightmost hull =
      .ok (min_by_x (min_by_x c cs) (A ++ B ++ [max_by_x c cs]),
           max_by_x (min_by_x c cs) (A ++ B ++ [max_by_x c cs])) := by
    rw [hhull, find_leftmost_and_rightmost]
  have hl2mem : min_by_x (min_by_x c cs) (A ++ B ++ [max_by_x c cs]) ∈ hull := by
    rw [hhull]; exact min_by_x_mem _ _
  have hr2mem : max_by_x (min_by_x c cs) (A ++ B ++ [max_by_x c cs]) ∈ hull := by
    rw [hhull]; exact max_by_x_mem _ _
  have hl2le : (min_by_x (min_by_x c cs) (A ++ B ++ [max_by_x c cs])).1 ≤ (min_by_x c cs).1 :=
    min_by_x_le _ _ _ (by simp)
  have hrler2 : (max_by_x c cs).1 ≤ (max_by_x (min_by_x c cs) (A ++ B ++ [max_by_x c cs])).1 :=
    max_by_x_ge _ _ _ (by simp)
  have hlmin : ∀ p ∈ coordinates, (min_by_x c cs).1 ≤ p.1 := by
    rw [hcc]; intro p hp; exact min_by_x_le cs c p hp
  have hrmax : ∀ p ∈ coordinates, p.1 ≤ (max_by_x c cs).1 := by
    rw [hcc]; intro p hp; exact max_by_x_ge cs c p hp
  have hll2 : (min_by_x c cs).1 ≤ (min_by_x (min_by_x c cs) (A ++ B ++ [max_by_x c cs])).1 :=
    hlmin _ (hsub _ hl2mem)
  have hr2r : (max_by_x (min_by_x c cs) (A ++ B ++ [max_by_x c cs])).1 ≤ (max_by_x c cs).1 :=
    hrmax _ (hsub _ hr2mem)
  have hlr_lt : (min_by_x c cs).1 < (max_by_x c cs).1 := by
    rcases lt_or_eq_of_le (hlmin (max_by_x c cs) (by rw [hcc]; exact max_by_x_mem cs c)) with
      hlt | heqx
    · exact hlt
    · exact absurd (min_eq_max_of_same_x c cs heqx) hne
  have hne2 : min_by_x (min_by_x c cs) (A ++ B ++ [max_by_x c cs]) ≠
      max_by_x (min_by_x c cs) (A ++ B ++ [max_by_x c cs]) := by
    intro e
    rw [e] at hl2le
    linarith
  obtain ⟨A2, hA2⟩ := find_hull_ok
    (find_coordinates_above_and_below_line hull
      (min_by_x (min_by_x c cs) (A ++ B ++ [max_by_x c cs]))
      (max_by_x (min_by_x c cs) (A ++ B ++ [max_by_x c cs]))).1
    (min_by_x (min_by_x c cs) (A ++ B ++ [max_by_x c cs]))
    (max_by_x (min_by_x c cs) (A ++ B ++ [max_by_x c cs])) hne2
  obtain ⟨B2, hB2⟩ := find_hull_ok
    (find_coordinates_above_and_below_line hull
      (min_by_x (min_by_x c cs) (A ++ B ++ [max_by_x c cs]))
      (max_by_x (min_by_x c cs) (A ++ B ++ [max_by_x c cs]))).2
    (max_by_x (min_by_x c cs) (A ++ B ++ [max_by_x c cs]))
    (min_by_x (min_by_x c cs) (A ++ B ++ [max_by_x c cs])) (Ne.symm hne2)
  have hrun : quick_hull hull =
      .ok ([min_by_x (min_by_x c cs) (A ++ B ++ [max_by_x c cs])] ++ A2 ++ B2 ++
        [max_by_x (min_by_x c cs) (A ++ B ++ [max_by_x c cs])]) := by
    rw [quick_hull, hflr]
    dsimp only
    rw [hA2]
    dsimp only
    rw [hB2]
  exact ⟨_, hrun, quick_hull_subset hull _ hrun⟩

/-- Witness for C8 on a triangle whose hull output repeats its leftmost
point. -/
theorem claim_C8_witness :
    ∃ hull2, quick_hull [((0:ℚ),(0:ℚ)),(2,1),(0,0),(4,0)] = .ok hull2 ∧
      ∀ p ∈ hull2, p ∈ ([((0:ℚ),(0:ℚ)),(2,1),(0,0),(4,0)] : List Point) :=
  claim_C8_idempotence_subset [((0:ℚ),(0:ℚ)), (4,0), (2,1)] [(0,0),(2,1),(0,0),(4,0)]
    (by
      rw [quick_hull_eq_fuel]
      norm_num [quick_hull_fuel, find_hull_fuel, farthest_point_from_line, first_max_point,
        find_coordinates_above_and_below_line, cross_product, distSq,
        find_leftmost_and_rightmost, min_by_x, max_by_x])

/-- C9.  Extremal point finder tie-breaking: on a non-empty point list the
finder returns as leftmost the point of least x, ties broken by first
occurrence in input order, and as rightmost the point of greatest x under
the same tie-break rule; on [(2,0),(2,5),(7,1)] the leftmost result is the
first of the two x-minimal points, (2,0). -/
theorem claim_C9_extremal_tiebreak :
    (∀ (c : Point) (cs : List Point) (l r : Point),
      find_leftmost_and_rightmost (c :: cs) = .ok (l, r) →
      (l ∈ c :: cs ∧ (∀ p ∈ c :: cs, l.1 ≤ p.1) ∧
        ∃ l1 l2, c :: cs = l1 ++ l :: l2 ∧ ∀ p ∈ l1, l.1 < p.1) ∧
      (r ∈ c :: cs ∧ (∀ p ∈ c :: cs, p.1 ≤ r.1) ∧
        ∃ l1 l2, c :: cs = l1 ++ r :: l2 ∧ ∀ p ∈ l1, p.1 < r.1)) ∧
    find_leftmost_and_rightmost [((2:ℚ),(0:ℚ)), (2,5), (7,1)] = .ok ((2,0), (7,1)) := by
  constructor
  · intro c cs l r hres
    rw [find_leftmost_and_rightmost] at hres
    injection hres with h2
    have hl : l = min_by_x c cs := (Prod.ext_iff.mp h2.symm).1
    have hr : r = max_by_x c cs := (Prod.ext_iff.mp h2.symm).2
    subst hl
    subst hr
    exact ⟨⟨min_by_x_mem cs c, fun p hp => min_by_x_le cs c p hp, min_by_x_first cs c⟩,
           ⟨max_by_x_mem cs c, fun p hp => max_by_x_ge cs c p hp, max_by_x_first cs c⟩⟩
  · norm_num [find_leftmost_and_rightmost, min_by_x, max_by_x]

/-- Witness for C9 on the tie-break input. -/
theorem claim_C9_witness :
    ((2:ℚ),(0:ℚ)) ∈ ([((2:ℚ),(0:ℚ)), (2,5), (7,1)] : List Point) :=
  ((claim_C9_extremal_tiebreak.1 ((2:ℚ),(0:ℚ)) [(2,5), (7,1)] ((2:ℚ),(0:ℚ)) ((7:ℚ),(1:ℚ))
    (by norm_num [find_leftmost_and_rightmost, min_by_x, max_by_x])).1).1

/-- C10.  Duplicate hull vertices: on the square-with-interior input, whose
points are pairwise distinct, the returned hull sequence contains the same
point at two distinct positions (the leftmost corner is emitted both by the
orchestrator and by the below-side recursion). -/
theorem claim_C10_duplicate_vertices :
    ([((0:ℚ),(0:ℚ)), (0,10), (10,0), (10,10), (5,5)] : List Point).Nodup ∧
    quick_hull [((0:ℚ),(0:ℚ)), (0,10), (10,0), (10,10), (5,5)] =
      .ok [(0,0),(0,10),(10,10),(0,0),(10,0)] ∧
    ∃ i j : Fin ([((0:ℚ),(0:ℚ)),(0,10),(10,10),(0,0),(10,0)] : List Point).length,
      i ≠ j ∧ ([((0:ℚ),(0:ℚ)),(0,10),(10,10),(0,0),(10,0)] : List Point).get i =
        ([((0:ℚ),(0:ℚ)),(0,10),(10,10),(0,0),(10,0)] : List Point).get j := by
  refine ⟨?_, ?_, ⟨⟨0, by norm_num⟩, ⟨3, by norm_num⟩, by norm_num [Fin.ext_iff], rfl⟩⟩
  · norm_num [List.nodup_cons, Prod.ext_iff]
  · rw [quick_hull_eq_fuel]
    norm_num [quick_hull_fuel, find_hull_fuel, farthest_point_from_line, first_max_point,
      find_coordinates_above_and_below_line, cross_product, distSq,
      find_leftmost_and_rightmost, min_by_x, max_by_x]

end Quickhull
